import Mathlib

/-!
Verification of the vxlasm lexer (src/lexer.rs).

The lexer is embedded shallowly: the `Lexer` struct and each of its methods
are translated one-to-one into Lean definitions.  Every loop of the Rust
source becomes a fuel-indexed recursive function returning `Option _`, where
`none` means the loop has not finished within the given fuel; a loop that
never terminates is then the statement `∀ fuel, run fuel = none`.  Machine
integers are modelled as `Nat`/`Int` with explicit reduction modulo `2 ^ 64`
exactly where the Rust code can overflow: `checked_add` becomes an explicit
range test, while the unchecked `n *= 10` / `n <<= 1` of the source wrap
(release semantics; debug builds would panic at the same spot).
-/

/-- Source position, mirroring `Position::new(index, row, column)` of the
`text_mapping` module: absolute character offset, zero-based row and column. -/
structure Position where
  idx : Nat
  row : Nat
  col : Nat
deriving DecidableEq, Repr

/-- Half-open source range, mirroring `TextRange::new(start, end, file)`; the
shared file handle carries no lexing information and is dropped. -/
structure TextRange where
  start : Position
  stop : Position
deriving DecidableEq, Repr

/-- Modelled from the spec: the register set of the external
`voxl_instruction_set` crate, with the ordinal scheme RSP, RFP, ROU, RFL,
RRA, RRB, R0..R9 pinned by the repository's `test_registers` test
(`Register::from(i)` for the i-th register spelling, `Register::R0 as u8 + d`
for digit registers). -/
inductive Reg where
  | RSP | RFP | ROU | RFL | RRA | RRB
  | R0 | R1 | R2 | R3 | R4 | R5 | R6 | R7 | R8 | R9
deriving DecidableEq, Repr

/-- Modelled from the spec: `Register::from(u8)` on the ordinals above; the
lexer only ever applies it to `R0 as u8 + d` with `d ≤ 9`, i.e. to 6..15. -/
def regFromNat : Nat → Reg
  | 0 => .RSP
  | 1 => .RFP
  | 2 => .ROU
  | 3 => .RFL
  | 4 => .RRA
  | 5 => .RRB
  | 6 => .R0
  | 7 => .R1
  | 8 => .R2
  | 9 => .R3
  | 10 => .R4
  | 11 => .R5
  | 12 => .R6
  | 13 => .R7
  | 14 => .R8
  | _ => .R9

/-- Token kinds, mirroring `TokenType` of the `token` module as listed in the
spec's data model (section 3) and used throughout `lexer.rs`. -/
inductive TokenType where
  | Comma
  | Colon
  | Register (r : Reg)
  | Opcode (code : Nat)
  | Identifier
  | UnsignedIntegerLiteral (n : Nat)
  | SignedIntegerLiteral (n : Int)
  | Repeat
  | EndRepeat
  | If
  | Else
  | Endif
  | Import
  | Constant
deriving DecidableEq, Repr

/-- A classified lexeme: kind plus source range (`Token::new(tp, range)`). -/
structure Token where
  type : TokenType
  range : TextRange
deriving DecidableEq, Repr

/-- The error taxonomy of `lexer.rs` (enum `LexerError`), verbatim. -/
inductive LexerError where
  | UnexpectedCharacter (c : Char) (p : Position)
  | EmptyIdentifier (p : Position)
  | InvalidHexLiteral (r : TextRange)
  | InvalidBinaryLiteral (r : TextRange)
  | UnexpectedSecondDecimalPoint (p : Position)
  | InvalidFloatLiteral (r : TextRange)
  | InvalidUnsignedIntegerLiteral (r : TextRange)
  | InvalidSignedIntegerLiteral (r : TextRange)
  | InvalidRegister (r : TextRange)
  | ExpectedRegisterFoundEOF (p : Position)
  | UnknownDirective (r : TextRange)
deriving DecidableEq, Repr

/-- Default numeric mode (enum `NumericType`). -/
inductive NumericType where
  | Signed
  | Unsigned
  | Float
deriving DecidableEq, Repr

/-- The lexer state (struct `Lexer`); the `file` handle is dropped. -/
structure Lexer where
  chars : List Char
  tokens : List Token
  index : Nat
  row : Nat
  col : Nat
  default_numeric : NumericType
deriving DecidableEq, Repr

/-- Model of Rust `char::to_digit(radix)`: ASCII digits and letters mapped to
their value, admitted when below the radix. -/
def charToDigit (radix : Nat) (c : Char) : Option Nat :=
  let n := c.toNat
  if 48 ≤ n ∧ n ≤ 57 then
    if n - 48 < radix then some (n - 48) else none
  else if 97 ≤ n ∧ n ≤ 122 then
    if n - 87 < radix then some (n - 87) else none
  else if 65 ≤ n ∧ n ≤ 90 then
    if n - 55 < radix then some (n - 55) else none
  else none

/-- Model of Rust `char::is_digit(radix)` (`to_digit(radix).is_some()`). -/
def isDigitR (radix : Nat) (c : Char) : Bool :=
  (charToDigit radix c).isSome

/-- The value of a digit, `c.to_digit(radix).unwrap()`; only used under an
`isDigitR` guard, so the default is never taken. -/
def digitVal (radix : Nat) (c : Char) : Nat :=
  (charToDigit radix c).getD 0

/-- Model of Rust `char::is_whitespace`: the Unicode `White_Space` set, which
is finite and listed here by code point. -/
def isRustWhitespace (c : Char) : Bool :=
  let n := c.toNat
  decide (n = 9 ∨ n = 10 ∨ n = 11 ∨ n = 12 ∨ n = 13 ∨ n = 32 ∨ n = 133 ∨
    n = 160 ∨ n = 5760 ∨ (8192 ≤ n ∧ n ≤ 8202) ∨ n = 8232 ∨ n = 8233 ∨
    n = 8239 ∨ n = 8287 ∨ n = 12288)

/-- Model of Rust `char::is_alphabetic`, restricted to the ASCII letter
ranges: the full Unicode `Alphabetic` class is not reproducible here, and
every input appearing in the spec and the claims is ASCII. -/
def isRustAlphabetic (c : Char) : Bool :=
  let n := c.toNat
  decide ((65 ≤ n ∧ n ≤ 90) ∨ (97 ≤ n ∧ n ≤ 122))

/-- Model of Rust `char::is_alphanumeric` under the same ASCII restriction:
letters or decimal digits. -/
def isRustAlphanumeric (c : Char) : Bool :=
  isRustAlphabetic c || decide (48 ≤ c.toNat ∧ c.toNat ≤ 57)

/-- Largest `u64` value. -/
def u64Max : Nat := 2 ^ 64 - 1

/-- Largest `i64` value. -/
def i64Max : Int := 2 ^ 63 - 1

/-- Smallest `i64` value. -/
def i64Min : Int := -(2 ^ 63)

/-- Wrapping of an unsigned 64-bit intermediate (release-mode semantics of
the unchecked `n *= 10` / `n <<= 1`; a debug build would panic instead). -/
def wrapU64 (n : Nat) : Nat := n % 2 ^ 64

/-- Wrapping of a signed 64-bit intermediate into `[-2^63, 2^63)`. -/
def wrapI64 (n : Int) : Int := (n + 2 ^ 63) % 2 ^ 64 - 2 ^ 63

/-- Model of `u64::checked_add`. -/
def checkedAddU64 (a b : Nat) : Option Nat :=
  if a + b ≤ u64Max then some (a + b) else none

/-- Model of `i64::checked_add`. -/
def checkedAddI64 (a b : Int) : Option Int :=
  if i64Min ≤ a + b ∧ a + b ≤ i64Max then some (a + b) else none

/-- Modelled from the spec: `TextRange::string()` of the `text_mapping`
module (not under src/): the substring of the file's characters between the
range's start and end offsets. -/
def rangeString (chars : List Char) (r : TextRange) : List Char :=
  (chars.drop r.start.idx).take (r.stop.idx - r.start.idx)

/-- Model of `u64::from_str_radix`, accumulator loop: checked accumulation
(no wrap-around), failing on a non-digit.  The lexer only passes strings of
radix-16 digits collected by its own loop, so sign handling never triggers
and is omitted. -/
def u64_from_str_radix_go (radix : Nat) : Nat → List Char → Option Nat
  | acc, [] => some acc
  | acc, c :: cs =>
    match charToDigit radix c with
    | none => none
    | some d =>
      if acc * radix + d ≤ u64Max then u64_from_str_radix_go radix (acc * radix + d) cs
      else none

/-- Model of `u64::from_str_radix`: empty input is an error, otherwise the
checked accumulation above. -/
def u64_from_str_radix (s : List Char) (radix : Nat) : Option Nat :=
  if s = [] then none else u64_from_str_radix_go radix 0 s

/-- Modelled from the spec: `Instruction::from_string` of the external
`voxl_instruction_set` crate.  The repository's tests pin "ldi" to opcode 3
and "call" to opcode 0x43; no other mnemonic is exercised by the spec or the
claims, so all other strings map to `none`. -/
def instructionFromString (s : List Char) : Option Nat :=
  if s = ['l', 'd', 'i'] then some 3
  else if s = ['c', 'a', 'l', 'l'] then some 67
  else none

/-- Modelled from the spec: `TokenType::match_identifier` of the `token`
module (not under src/), the closed directive keyword set of section 4.2. -/
def matchIdentifier (s : List Char) : Option TokenType :=
  if s = ['r', 'e', 'p', 'e', 'a', 't'] then some .Repeat
  else if s = ['e', 'n', 'd', '_', 'r', 'e', 'p', 'e', 'a', 't'] then some .EndRepeat
  else if s = ['i', 'f'] then some .If
  else if s = ['e', 'l', 's', 'e'] then some .Else
  else if s = ['e', 'n', 'd', 'i', 'f'] then some .Endif
  else if s = ['i', 'm', 'p', 'o', 'r', 't'] then some .Import
  else if s = ['c', 'o', 'n', 's', 't'] then some .Constant
  else none

/-- `Lexer::new`: fresh state over a character buffer. -/
def Lexer.new (chars : List Char) (default_numeric : NumericType) : Lexer :=
  ⟨chars, [], 0, 0, 0, default_numeric⟩

/-- `Lexer::current`: the character at the cursor, if in bounds. -/
def Lexer.current (l : Lexer) : Option Char :=
  l.chars.get? l.index

/-- `Lexer::peek`: one character of lookahead. -/
def Lexer.peek (l : Lexer) : Option Char :=
  l.chars.get? (l.index + 1)

/-- `Lexer::increment`: plain advance. -/
def Lexer.increment (l : Lexer) : Lexer :=
  { l with index := l.index + 1, col := l.col + 1 }

/-- `Lexer::increment_row`: newline advance. -/
def Lexer.increment_row (l : Lexer) : Lexer :=
  { l with index := l.index + 1, col := 0, row := l.row + 1 }

/-- `Lexer::current_position`. -/
def Lexer.current_position (l : Lexer) : Position :=
  ⟨l.index, l.row, l.col⟩

/-- `Lexer::current_range(lexeme_len)`: the range of the last `lexeme_len`
consumed characters (the Rust `usize` subtractions never underflow at the
call sites; `Nat` subtraction is likewise total). -/
def Lexer.current_range (l : Lexer) (len : Nat) : TextRange :=
  ⟨⟨l.index - len, l.row, l.col - len⟩, ⟨l.index, l.row, l.col⟩⟩

/-- `Lexer::new_token(tp, lexeme_len)`. -/
def Lexer.new_token (l : Lexer) (tp : TokenType) (len : Nat) : Token :=
  ⟨tp, l.current_range len⟩

/-- `self.tokens.push(t)`. -/
def Lexer.push (l : Lexer) (t : Token) : Lexer :=
  { l with tokens := l.tokens ++ [t] }

/-- `Lexer::remaining_length`. -/
def Lexer.remaining_length (l : Lexer) : Nat :=
  l.chars.length - l.index

/-- The `#` comment loop of `Lexer::process`: `while let Some(c) = current`,
advancing only when `c != '\n'` — on a newline the body does nothing and the
loop retries with unchanged state, so it can only exhaust its fuel. -/
def skipCommentLoop : Nat → Lexer → Option Lexer
  | 0, _ => none
  | fuel + 1, l =>
    match l.current with
    | none => some l
    | some c => if c ≠ '\n' then skipCommentLoop fuel l.increment else skipCommentLoop fuel l

/-- Inner helper `consume_until_end_identifier` of `process_register`:
consume alphanumerics, returning the position after the last one together
with the advanced state. -/
def consumeUntilEndIdentifier : Nat → Lexer → Option (Position × Lexer)
  | 0, _ => none
  | fuel + 1, l =>
    match l.current with
    | none => some (l.current_position, l)
    | some c =>
      if isRustAlphanumeric c then consumeUntilEndIdentifier fuel l.increment
      else some (l.current_position, l)

/-- One alternative list of the `len_3_reg!` macro after the first suffix
character matched: try each admissible second letter in order, otherwise
`InvalidRegister` over the whole over-long identifier. -/
def len3Alts : Nat → Lexer → Position → List (Char × Reg) →
    Option (Except LexerError (Lexer × Reg × Nat))
  | fuel, l, startingPosition, [] =>
    match consumeUntilEndIdentifier fuel l with
    | none => none
    | some (endPos, _) => some (.error (.InvalidRegister ⟨startingPosition, endPos⟩))
  | fuel, l, startingPosition, (ch, r) :: rest =>
    if l.current = some ch then some (.ok (l.increment, r, 3))
    else len3Alts fuel l startingPosition rest

/-- The `len_3_reg!` macro body: consume the first suffix character, fail
with `ExpectedRegisterFoundEOF` at the starting position when the input ends,
otherwise branch on the second suffix character. -/
def len_3_reg (fuel : Nat) (l : Lexer) (startingPosition : Position)
    (alts : List (Char × Reg)) : Option (Except LexerError (Lexer × Reg × Nat)) :=
  let l1 := l.increment
  match l1.current with
  | none => some (.error (.ExpectedRegisterFoundEOF startingPosition))
  | some _ => len3Alts fuel l1 startingPosition alts

/-- The `match self.current().unwrap()` body of `process_register`, after the
leading `r` has been consumed; returns the register, the token length and the
advanced state.  The `none` case is unreachable (`remaining_length ≥ 2` held
before the `r` was consumed, which is what lets the Rust code unwrap). -/
def registerMatch (fuel : Nat) (l : Lexer) (startingPosition : Position) :
    Option (Except LexerError (Lexer × Reg × Nat)) :=
  match l.current with
  | none => some (.error (.InvalidRegister ⟨startingPosition, startingPosition⟩))
  | some c =>
    if c = 'f' then len_3_reg fuel l startingPosition [('p', .RFP), ('l', .RFL)]
    else if c = 's' then len_3_reg fuel l startingPosition [('p', .RSP)]
    else if c = 'o' then len_3_reg fuel l startingPosition [('u', .ROU)]
    else if c = 'r' then len_3_reg fuel l startingPosition [('a', .RRA), ('b', .RRB)]
    else if isDigitR 10 c then
      let l1 := l.increment
      match consumeUntilEndIdentifier fuel l1 with
      | none => none
      | some (endPos, l2) =>
        if endPos ≠ l1.current_position then
          some (.error (.InvalidRegister ⟨startingPosition, endPos⟩))
        else some (.ok (l2, regFromNat (6 + digitVal 10 c), 2))
    else
      match consumeUntilEndIdentifier fuel l with
      | none => none
      | some (endPos, _) => some (.error (.InvalidRegister ⟨startingPosition, endPos⟩))

/-- `Lexer::process_register` (entered with the `$` already consumed). -/
def process_register (fuel : Nat) (l : Lexer) : Option (Except LexerError Lexer) :=
  let startingPosition := l.current_position
  if l.remaining_length = 0 then
    some (.error (.ExpectedRegisterFoundEOF startingPosition))
  else if l.remaining_length < 2 then
    match consumeUntilEndIdentifier fuel l with
    | none => none
    | some (endPos, _) => some (.error (.InvalidRegister ⟨startingPosition, endPos⟩))
  else if l.current ≠ some 'r' then
    match consumeUntilEndIdentifier fuel l with
    | none => none
    | some (endPos, _) => some (.error (.InvalidRegister ⟨startingPosition, endPos⟩))
  else
    match registerMatch fuel l.increment startingPosition with
    | none => none
    | some (.error e) => some (.error e)
    | some (.ok (l2, reg, len)) => some (.ok (l2.push (l2.new_token (.Register reg) len)))

/-- Tail of `process_directive` after its consuming loop. -/
def directiveFinish (l : Lexer) (len : Nat) : Except LexerError Lexer :=
  if len = 0 then .error (.EmptyIdentifier l.current_position)
  else
    let range := l.current_range len
    match matchIdentifier (rangeString l.chars range) with
    | some identifier => .ok (l.push ⟨identifier, range⟩)
    | none => .error (.UnknownDirective range)

/-- The consuming loop of `Lexer::process_directive`: a maximal run of
alphabetic/`_` characters. -/
def directiveLoop : Nat → Lexer → Nat → Option (Except LexerError Lexer)
  | 0, _, _ => none
  | fuel + 1, l, len =>
    match l.current with
    | none => some (directiveFinish l len)
    | some c =>
      if isRustAlphabetic c || c = '_' then directiveLoop fuel l.increment (len + 1)
      else some (directiveFinish l len)

/-- `Lexer::process_directive` (entered with the `%` already consumed). -/
def process_directive (fuel : Nat) (l : Lexer) : Option (Except LexerError Lexer) :=
  directiveLoop fuel l 0

/-- Tail of `process_identifier` after its consuming loop. -/
def identFinish (l : Lexer) (len : Nat) (possibleOpcode : Bool) : Except LexerError Lexer :=
  if len = 0 then .error (.EmptyIdentifier l.current_position)
  else if possibleOpcode then
    match instructionFromString (rangeString l.chars (l.current_range len)) with
    | some code => .ok (l.push (l.new_token (.Opcode code) len))
    | none => .ok (l.push (l.new_token .Identifier len))
  else .ok (l.push (l.new_token .Identifier len))

/-- The consuming loop of `Lexer::process_identifier`: a maximal run of
alphabetic/`_` characters, tracking whether an `_` occurred. -/
def identLoop : Nat → Lexer → Nat → Bool → Option (Except LexerError Lexer)
  | 0, _, _, _ => none
  | fuel + 1, l, len, possibleOpcode =>
    match l.current with
    | none => some (identFinish l len possibleOpcode)
    | some c =>
      if isRustAlphabetic c || c = '_' then
        identLoop fuel l.increment (len + 1) (if c = '_' then false else possibleOpcode)
      else some (identFinish l len possibleOpcode)

/-- `Lexer::process_identifier`. -/
def process_identifier (fuel : Nat) (l : Lexer) : Option (Except LexerError Lexer) :=
  identLoop fuel l 0 true

/-- Tail of `process_hex` after its counting loop: textual base-16 parse of
the consumed range. -/
def hexFinish (l : Lexer) (len : Nat) : Except LexerError Lexer :=
  let range := l.current_range len
  match u64_from_str_radix (rangeString l.chars range) 16 with
  | some n => .ok (l.push ⟨.UnsignedIntegerLiteral n, range⟩)
  | none => .error (.InvalidHexLiteral range)

/-- The counting loop of `Lexer::process_hex`: a maximal run of hex digits. -/
def hexLoop : Nat → Lexer → Nat → Option (Except LexerError Lexer)
  | 0, _, _ => none
  | fuel + 1, l, len =>
    match l.current with
    | none => some (hexFinish l len)
    | some c =>
      if isDigitR 16 c then hexLoop fuel l.increment (len + 1)
      else some (hexFinish l len)

/-- `Lexer::process_hex` (entered with the `0x` already consumed). -/
def process_hex (fuel : Nat) (l : Lexer) : Option (Except LexerError Lexer) :=
  hexLoop fuel l 0

/-- The accumulating loop of `Lexer::process_binary`: per digit, advance
first, then fail on the 65th digit, then shift-and-or into the accumulator
(`n <<= 1; n |= digit`, kept at zero while the run is all zeros). -/
def binLoop : Nat → Lexer → Nat → Nat → Option (Except LexerError Lexer)
  | 0, _, _, _ => none
  | fuel + 1, l, n, len =>
    match l.current with
    | none => some (.ok (l.push (l.new_token (.UnsignedIntegerLiteral n) len)))
    | some c =>
      if isDigitR 2 c then
        let l1 := l.increment
        if len = 64 then some (.error (.InvalidBinaryLiteral (l1.current_range len)))
        else
          binLoop fuel l1
            (if n = 0 then digitVal 2 c else wrapU64 ((n <<< 1) ||| digitVal 2 c)) (len + 1)
      else some (.ok (l.push (l.new_token (.UnsignedIntegerLiteral n) len)))

/-- `Lexer::process_binary` (entered with the `0b` already consumed). -/
def process_binary (fuel : Nat) (l : Lexer) : Option (Except LexerError Lexer) :=
  binLoop fuel l 0 0

/-- Tail of `process_unsigned` after its loop: zero digits consumed is an
error — carrying, as in the source, the *signed*-literal error variant with a
zero-width range at the cursor. -/
def unsignedFinish (l : Lexer) (n len : Nat) : Except LexerError Lexer :=
  if len = 0 then
    .error (.InvalidSignedIntegerLiteral ⟨l.current_position, l.current_position⟩)
  else .ok (l.push (l.new_token (.UnsignedIntegerLiteral n) len))

/-- The accumulating loop of `Lexer::process_unsigned`: per decimal digit,
keep a first nonzero digit as-is, otherwise multiply by ten *unchecked*
(wrapping here) and add the digit with `checked_add`, whose failure is
`InvalidUnsignedIntegerLiteral` over the run including the offending digit. -/
def unsignedLoop : Nat → Lexer → Nat → Nat → Option (Except LexerError Lexer)
  | 0, _, _, _ => none
  | fuel + 1, l, n, len =>
    match l.current with
    | none => some (unsignedFinish l n len)
    | some c =>
      if isDigitR 10 c then
        if n = 0 then unsignedLoop fuel l.increment (digitVal 10 c) (len + 1)
        else
          match checkedAddU64 (wrapU64 (n * 10)) (digitVal 10 c) with
          | some m => unsignedLoop fuel l.increment m (len + 1)
          | none => some (.error (.InvalidUnsignedIntegerLiteral (l.current_range (len + 1))))
      else some (unsignedFinish l n len)

/-- `Lexer::process_unsigned`. -/
def process_unsigned (fuel : Nat) (l : Lexer) : Option (Except LexerError Lexer) :=
  unsignedLoop fuel l 0 0

/-- Tail of `process_signed` after its loop: zero digits consumed (sign
included in `len` when present, so a lone `-` is *not* this case) is an
error; otherwise negate on a sign (`n *= -1`, unchecked, hence wrapping) and
emit. -/
def signedFinish (l : Lexer) (negative : Bool) (n : Int) (len : Nat) : Except LexerError Lexer :=
  if len = 0 then
    .error (.InvalidSignedIntegerLiteral ⟨l.current_position, l.current_position⟩)
  else .ok (l.push (l.new_token (.SignedIntegerLiteral (if negative then wrapI64 (-n) else n)) len))

/-- The accumulating loop of `Lexer::process_signed`, structured exactly like
the unsigned one but over a signed 64-bit accumulator. -/
def signedLoop : Nat → Lexer → Bool → Int → Nat → Option (Except LexerError Lexer)
  | 0, _, _, _, _ => none
  | fuel + 1, l, negative, n, len =>
    match l.current with
    | none => some (signedFinish l negative n len)
    | some c =>
      if isDigitR 10 c then
        if n = 0 then signedLoop fuel l.increment negative (digitVal 10 c) (len + 1)
        else
          match checkedAddI64 (wrapI64 (n * 10)) (digitVal 10 c) with
          | some m => signedLoop fuel l.increment negative m (len + 1)
          | none => some (.error (.InvalidSignedIntegerLiteral (l.current_range (len + 1))))
      else some (signedFinish l negative n len)

/-- `Lexer::process_signed`: an optional leading `-` (counted in the lexeme
length), then the loop. -/
def process_signed (fuel : Nat) (l : Lexer) : Option (Except LexerError Lexer) :=
  if l.current = some '-' then signedLoop fuel l.increment true 0 1
  else signedLoop fuel l false 0 0

/-- `Lexer::process_float`: `todo!()` in the source — the call aborts and
produces no result value, modelled as no terminating result. -/
def process_float (_fuel : Nat) (_l : Lexer) : Option (Except LexerError Lexer) :=
  none

/-- `Lexer::process_default_numeric`: dispatch on the configured mode; under
Unsigned a literal `-` is a hard `UnexpectedCharacter` failure. -/
def process_default_numeric (fuel : Nat) (l : Lexer) : Option (Except LexerError Lexer) :=
  match l.default_numeric with
  | .Signed => process_signed fuel l
  | .Unsigned =>
    if l.current = some '-' then
      some (.error (.UnexpectedCharacter '-' l.current_position))
    else process_unsigned fuel l
  | .Float => process_float fuel l

/-- The driver loop `Lexer::process`: one dispatch per leading character.
The Rust `match` over disjoint character arms is rendered as an ordered
if-chain; the order of the tests is the order of the arms. -/
def process : Nat → Lexer → Option (Except LexerError Lexer)
  | 0, _ => none
  | fuel + 1, l =>
    match l.current with
    | none => some (.ok l)
    | some c =>
      if c = '\n' then process fuel l.increment_row
      else if c = '%' then
        match process_directive fuel l.increment with
        | none => none
        | some (.error e) => some (.error e)
        | some (.ok l2) => process fuel l2
      else if c = '#' then
        match skipCommentLoop fuel l.increment with
        | none => none
        | some l2 => process fuel l2
      else if c = ',' then
        let l2 := l.increment
        process fuel (l2.push (l2.new_token .Comma 1))
      else if c = ':' then
        let l2 := l.increment
        process fuel (l2.push (l2.new_token .Colon 1))
      else if c = '$' then
        match process_register fuel l.increment with
        | none => none
        | some (.error e) => some (.error e)
        | some (.ok l2) => process fuel l2
      else if c = '0' then
        match l.peek with
        | none =>
          match process_default_numeric fuel l with
          | none => none
          | some (.error e) => some (.error e)
          | some (.ok l2) => process fuel l2
        | some p =>
          if p = 'x' then
            match process_hex fuel l.increment.increment with
            | none => none
            | some (.error e) => some (.error e)
            | some (.ok l2) => process fuel l2
          else if p = 'b' then
            match process_binary fuel l.increment.increment with
            | none => none
            | some (.error e) => some (.error e)
            | some (.ok l2) => process fuel l2
          else if p = 'i' then
            match process_signed fuel l.increment.increment with
            | none => none
            | some (.error e) => some (.error e)
            | some (.ok l2) => process fuel l2
          else if p = 'u' then
            match process_unsigned fuel l.increment.increment with
            | none => none
            | some (.error e) => some (.error e)
            | some (.ok l2) => process fuel l2
          else if p = 'f' then
            match process_float fuel l.increment.increment with
            | none => none
            | some (.error e) => some (.error e)
            | some (.ok l2) => process fuel l2
          else
            match process_default_numeric fuel l with
            | none => none
            | some (.error e) => some (.error e)
            | some (.ok l2) => process fuel l2
      else if isRustWhitespace c then process fuel l.increment
      else if isRustAlphabetic c || c = '_' then
        match process_identifier fuel l with
        | none => none
        | some (.error e) => some (.error e)
        | some (.ok l2) => process fuel l2
      else if isDigitR 10 c || c = '-' then
        match process_default_numeric fuel l with
        | none => none
        | some (.error e) => some (.error e)
        | some (.ok l2) => process fuel l2
      else some (.error (.UnexpectedCharacter c l.current_position))

/-- Fuel that always suffices when the lexer terminates at all: every driver
iteration that continues advances the cursor by at least one character, and
each sub-parser loop needs at most the remaining input plus one step. -/
def defaultFuel (chars : List Char) : Nat := chars.length + 2

/-- `Lexer::tokenize`: run the driver over a fresh Unsigned-mode lexer and
extract the token list.  `none` means the driver did not finish within
`defaultFuel` steps — which, as proven below, can only happen because of the
non-terminating comment loop. -/
def tokenize (chars : List Char) : Option (Except LexerError (List Token)) :=
  match process (defaultFuel chars) (Lexer.new chars .Unsigned) with
  | none => none
  | some (.error e) => some (.error e)
  | some (.ok l) => some (.ok l.tokens)

/-- Decimal value of a digit string (for stating overflow claims). -/
def decValue (ds : List Char) : Nat :=
  ds.foldl (fun acc c => acc * 10 + digitVal 10 c) 0

/-- The pure accumulation performed by `unsignedLoop` over a digit run:
`none` exactly when the checked addition of the source trips. -/
def accumU : Nat → List Char → Option Nat
  | n, [] => some n
  | n, c :: cs =>
    if n = 0 then accumU (digitVal 10 c) cs
    else
      match checkedAddU64 (wrapU64 (n * 10)) (digitVal 10 c) with
      | some m => accumU m cs
      | none => none

/-- Discriminator: is the outcome an `ExpectedRegisterFoundEOF` error? -/
def isEOFRegisterError : Option (Except LexerError (List Token)) → Bool
  | some (.error (.ExpectedRegisterFoundEOF _)) => true
  | _ => false

/-- The range property of claim C4, relative to one sub-parser run from
state `l` to state `l2`: exactly one token was appended, and its range runs
from the cursor at sub-parser entry to the cursor at sub-parser exit — i.e.
it covers exactly the characters that run consumed. -/
def appendsExactRange (l l2 : Lexer) : Prop :=
  ∃ t : Token, l2.tokens = l.tokens ++ [t] ∧
    t.range.start.idx = l.index ∧ t.range.stop.idx = l2.index

/-- The character buffer of the comment-termination scenario of claim C2. -/
def c2chars : List Char := "ldi 52 #trailing $$$\n".toList

/-! ## Helper lemmas -/

theorem get?_append_head {α : Type _} (pre rest : List α) :
    (pre ++ rest).get? pre.length = rest.head? := by
  induction pre with
  | nil => cases rest <;> rfl
  | cons p pre ih => exact ih

theorem get?_length_none {α : Type _} (xs : List α) : xs.get? xs.length = none := by
  have h := get?_append_head xs ([] : List α)
  rwa [List.append_nil] at h

theorem skipComment_stuck : ∀ (fuel : Nat) (l : Lexer),
    l.current = some '\n' → skipCommentLoop fuel l = none := by
  intro fuel
  induction fuel with
  | zero => intro l _; rfl
  | succ f ih =>
    intro l h
    have hstep : skipCommentLoop (f + 1) l = skipCommentLoop f l := by
      simp [skipCommentLoop, h]
    rw [hstep]
    exact ih l h

theorem skipComment_stalls : ∀ (k : Nat) (l : Lexer),
    (∀ i, i < k →
      l.chars.get? (l.index + i) ≠ none ∧ l.chars.get? (l.index + i) ≠ some '\n') →
    l.chars.get? (l.index + k) = some '\n' →
    ∀ fuel, skipCommentLoop fuel l = none := by
  intro k
  induction k with
  | zero =>
    intro l _ hnl fuel
    exact skipComment_stuck fuel l (by simpa [Lexer.current] using hnl)
  | succ k ih =>
    intro l hmid hnl fuel
    cases fuel with
    | zero => rfl
    | succ f =>
      obtain ⟨h0ne, h0nl⟩ := hmid 0 (Nat.succ_pos k)
      rw [Nat.add_zero] at h0ne h0nl
      cases hc : l.chars.get? l.index with
      | none => exact absurd hc h0ne
      | some c =>
        have hcne : c ≠ '\n' := fun he => h0nl (by rw [hc, he])
        have hstep : skipCommentLoop (f + 1) l = skipCommentLoop f l.increment := by
          simp only [skipCommentLoop, Lexer.current, hc]
          rw [if_pos hcne]
        rw [hstep]
        apply ih l.increment
        · intro i hi
          have h2 := hmid (i + 1) (by omega)
          have e : l.index + (i + 1) = l.index + 1 + i := by omega
          rw [e] at h2
          exact h2
        · have e : l.index + (k + 1) = l.index + 1 + k := by omega
          rw [e] at hnl
          exact hnl

/-! ## Claim C1 -/

/-- C1: the claim says the driver loop `process` terminates on every finite
input and default mode, in particular when a `#` comment is followed by a
newline.  In fact on the input "#\n" the comment loop never advances past the
newline, so `process` yields no result at any fuel, for every mode: the code
loops forever where the spec promises termination. -/
theorem c1_process_never_terminates_on_comment_newline :
    ∀ (mode : NumericType) (fuel : Nat),
      process fuel (Lexer.new ['#', '\n'] mode) = none := by
  intro mode fuel
  cases fuel with
  | zero => rfl
  | succ f =>
    have h : process (f + 1) (Lexer.new ['#', '\n'] mode)
        = (match skipCommentLoop f ⟨['#', '\n'], [], 1, 0, 1, mode⟩ with
           | none => none
           | some l2 => process f l2) := rfl
    rw [h, skipComment_stuck f ⟨['#', '\n'], [], 1, 0, 1, mode⟩ rfl]

/-! ## Claim C2 -/

theorem c2_skip_stalls : ∀ fuel,
    skipCommentLoop fuel
      ⟨c2chars, [⟨.Opcode 3, ⟨⟨0, 0, 0⟩, ⟨3, 0, 3⟩⟩⟩,
        ⟨.UnsignedIntegerLiteral 52, ⟨⟨4, 0, 4⟩, ⟨6, 0, 6⟩⟩⟩], 8, 0, 8, .Unsigned⟩ = none :=
  skipComment_stalls 12 _ (by decide) (by decide)

theorem c2_stuck_at_comment : ∀ fuel,
    process fuel
      ⟨c2chars, [⟨.Opcode 3, ⟨⟨0, 0, 0⟩, ⟨3, 0, 3⟩⟩⟩,
        ⟨.UnsignedIntegerLiteral 52, ⟨⟨4, 0, 4⟩, ⟨6, 0, 6⟩⟩⟩], 7, 0, 7, .Unsigned⟩ = none := by
  intro fuel
  cases fuel with
  | zero => rfl
  | succ f =>
    have h : process (f + 1)
        ⟨c2chars, [⟨.Opcode 3, ⟨⟨0, 0, 0⟩, ⟨3, 0, 3⟩⟩⟩,
          ⟨.UnsignedIntegerLiteral 52, ⟨⟨4, 0, 4⟩, ⟨6, 0, 6⟩⟩⟩], 7, 0, 7, .Unsigned⟩
        = (match skipCommentLoop f
            ⟨c2chars, [⟨.Opcode 3, ⟨⟨0, 0, 0⟩, ⟨3, 0, 3⟩⟩⟩,
              ⟨.UnsignedIntegerLiteral 52, ⟨⟨4, 0, 4⟩, ⟨6, 0, 6⟩⟩⟩], 8, 0, 8, .Unsigned⟩ with
           | none => none
           | some l2 => process f l2) := rfl
    rw [h, c2_skip_stalls f]

theorem c2_stuck_second_space : ∀ fuel,
    process fuel
      ⟨c2chars, [⟨.Opcode 3, ⟨⟨0, 0, 0⟩, ⟨3, 0, 3⟩⟩⟩,
        ⟨.UnsignedIntegerLiteral 52, ⟨⟨4, 0, 4⟩, ⟨6, 0, 6⟩⟩⟩], 6, 0, 6, .Unsigned⟩ = none := by
  intro fuel
  cases fuel with
  | zero => rfl
  | succ f => exact c2_stuck_at_comment f

theorem c2_uns_dichotomy : ∀ fuel,
    unsignedLoop fuel ⟨c2chars, [⟨.Opcode 3, ⟨⟨0, 0, 0⟩, ⟨3, 0, 3⟩⟩⟩], 4, 0, 4, .Unsigned⟩ 0 0
        = none ∨
    unsignedLoop fuel ⟨c2chars, [⟨.Opcode 3, ⟨⟨0, 0, 0⟩, ⟨3, 0, 3⟩⟩⟩], 4, 0, 4, .Unsigned⟩ 0 0
        = some (.ok ⟨c2chars, [⟨.Opcode 3, ⟨⟨0, 0, 0⟩, ⟨3, 0, 3⟩⟩⟩,
            ⟨.UnsignedIntegerLiteral 52, ⟨⟨4, 0, 4⟩, ⟨6, 0, 6⟩⟩⟩], 6, 0, 6, .Unsigned⟩) := by
  intro fuel
  obtain _ | _ | _ | f := fuel
  · exact Or.inl rfl
  · exact Or.inl rfl
  · exact Or.inl rfl
  · exact Or.inr rfl

theorem c2_stuck_literal : ∀ fuel,
    process fuel ⟨c2chars, [⟨.Opcode 3, ⟨⟨0, 0, 0⟩, ⟨3, 0, 3⟩⟩⟩], 4, 0, 4, .Unsigned⟩
      = none := by
  intro fuel
  cases fuel with
  | zero => rfl
  | succ f =>
    have h : process (f + 1) ⟨c2chars, [⟨.Opcode 3, ⟨⟨0, 0, 0⟩, ⟨3, 0, 3⟩⟩⟩], 4, 0, 4, .Unsigned⟩
        = (match unsignedLoop f
              ⟨c2chars, [⟨.Opcode 3, ⟨⟨0, 0, 0⟩, ⟨3, 0, 3⟩⟩⟩], 4, 0, 4, .Unsigned⟩ 0 0 with
           | none => none
           | some (.error e) => some (.error e)
           | some (.ok l2) => process f l2) := rfl
    rcases c2_uns_dichotomy f with hh | hh
    · rw [h, hh]
    · rw [h, hh]
      exact c2_stuck_second_space f

theorem c2_stuck_first_space : ∀ fuel,
    process fuel ⟨c2chars, [⟨.Opcode 3, ⟨⟨0, 0, 0⟩, ⟨3, 0, 3⟩⟩⟩], 3, 0, 3, .Unsigned⟩
      = none := by
  intro fuel
  cases fuel with
  | zero => rfl
  | succ f => exact c2_stuck_literal f

theorem c2_ident_dichotomy : ∀ fuel,
    identLoop fuel ⟨c2chars, [], 0, 0, 0, .Unsigned⟩ 0 true = none ∨
    identLoop fuel ⟨c2chars, [], 0, 0, 0, .Unsigned⟩ 0 true
      = some (.ok ⟨c2chars, [⟨.Opcode 3, ⟨⟨0, 0, 0⟩, ⟨3, 0, 3⟩⟩⟩], 3, 0, 3, .Unsigned⟩) := by
  intro fuel
  obtain _ | _ | _ | _ | f := fuel
  · exact Or.inl rfl
  · exact Or.inl rfl
  · exact Or.inl rfl
  · exact Or.inl rfl
  · exact Or.inr rfl

theorem c2_stuck_start : ∀ fuel, process fuel (Lexer.new c2chars .Unsigned) = none := by
  intro fuel
  cases fuel with
  | zero => rfl
  | succ f =>
    have h : process (f + 1) (Lexer.new c2chars .Unsigned)
        = (match identLoop f ⟨c2chars, [], 0, 0, 0, .Unsigned⟩ 0 true with
           | none => none
           | some (.error e) => some (.error e)
           | some (.ok l2) => process f l2) := rfl
    rcases c2_ident_dichotomy f with hh | hh
    · rw [h, hh]
    · rw [h, hh]
      exact c2_stuck_first_space f

/-- C2: the claim says "ldi 52 #trailing $$$\n" lexes to exactly the tokens
of "ldi 52\n".  In fact the comment loop never consumes the newline that
follows the comment body, so the driver never terminates on the first input
(no fuel suffices), while "ldi 52\n" lexes to [Opcode 3 over [0,3),
UnsignedIntegerLiteral 52 over [4,6)]. -/
theorem c2_comment_input_diverges_instead_of_matching :
    (∀ fuel, process fuel (Lexer.new c2chars .Unsigned) = none) ∧
    tokenize "ldi 52\n".toList
      = some (.ok [⟨.Opcode 3, ⟨⟨0, 0, 0⟩, ⟨3, 0, 3⟩⟩⟩,
          ⟨.UnsignedIntegerLiteral 52, ⟨⟨4, 0, 4⟩, ⟨6, 0, 6⟩⟩⟩]) :=
  ⟨c2_stuck_start, by rfl⟩

/-! ## Claim C3 -/

/-- C3: the claim says any decimal run whose value exceeds 2^64 - 1 — in
particular twenty nines — fails with InvalidUnsignedIntegerLiteral and never
yields a wrapped token.  In fact the unchecked multiplication by ten wraps
(release semantics; a debug build panics), the checked addition then sees no
overflow, and the lexer emits an UnsignedIntegerLiteral carrying exactly the
value reduced modulo 2^64. -/
theorem c3_unsigned_overflow_wraps_undetected :
    decValue (List.replicate 20 '9') = 99999999999999999999 ∧
    u64Max < decValue (List.replicate 20 '9') ∧
    tokenize (List.replicate 20 '9')
      = some (.ok [⟨.UnsignedIntegerLiteral 7766279631452241919, ⟨⟨0, 0, 0⟩, ⟨20, 0, 20⟩⟩⟩]) ∧
    7766279631452241919 = 99999999999999999999 % 2 ^ 64 :=
  ⟨by rfl, by decide, by rfl, by rfl⟩

/-! ## Claim C4, counterexample -/

/-- C4 counterexample: lexing "0x2a" consumes the whole four-character input
and emits a single token, but that token's range is [2,4) of length 2 — the
two prefix characters are not covered, contradicting the claim that range
length equals the consumed lexeme including the prefix. -/
theorem c4_hex_range_excludes_prefix_counterexample :
    tokenize ['0', 'x', '2', 'a']
      = some (.ok [⟨.UnsignedIntegerLiteral 42, ⟨⟨2, 0, 2⟩, ⟨4, 0, 4⟩⟩⟩]) ∧
    (4 : Nat) - 2 ≠ (['0', 'x', '2', 'a'] : List Char).length :=
  ⟨by rfl, by decide⟩

/-! ## Claim C5, counterexample -/

/-- C5 counterexample: under the Unsigned default mode, "0i-123" produces one
SignedIntegerLiteral token spanning [2,6), whose spanned substring is exactly
"-123"; re-lexing "-123" under the same mode does not reproduce a token of
the same kind — it fails with UnexpectedCharacter at the leading minus. -/
theorem c5_prefixed_literal_relex_fails_counterexample :
    tokenize "0i-123".toList
      = some (.ok [⟨.SignedIntegerLiteral (-123), ⟨⟨2, 0, 2⟩, ⟨6, 0, 6⟩⟩⟩]) ∧
    rangeString "0i-123".toList ⟨⟨2, 0, 2⟩, ⟨6, 0, 6⟩⟩ = "-123".toList ∧
    tokenize "-123".toList = some (.error (.UnexpectedCharacter '-' ⟨0, 0, 0⟩)) :=
  ⟨by rfl, by rfl, by rfl⟩

/-! ## Claim C6, counterexample -/

/-- C6 counterexample: on "0b" followed by sixty-five binary digits the error
range is [3,67) — it starts at offset 3, one past the first digit of the run
(the run starts at offset 2), and covers 64 characters, not the 65 the claim
describes. -/
theorem c6_range_starts_at_second_digit_counterexample :
    tokenize ("0b".toList ++ List.replicate 65 '1')
      = some (.error (.InvalidBinaryLiteral ⟨⟨3, 0, 3⟩, ⟨67, 0, 67⟩⟩)) ∧
    ("0b".toList ++ List.replicate 65 '1').get? 2 = some '1' ∧
    (3 : Nat) ≠ 2 ∧ (67 : Nat) - 3 ≠ 65 :=
  ⟨by rfl, by rfl, by decide, by decide⟩

/-! ## Claim C7 -/

/-- C7 counterexample: the whole-input "$r" does not yield
ExpectedRegisterFoundEOF as claimed: the `remaining_length < 2` check fires
first and produces InvalidRegister over the lone `r`. -/
theorem c7_dollar_r_invalid_register_counterexample :
    tokenize ['$', 'r'] = some (.error (.InvalidRegister ⟨⟨1, 0, 1⟩, ⟨2, 0, 2⟩⟩)) ∧
    isEOFRegisterError (tokenize ['$', 'r']) = false :=
  ⟨by rfl, by rfl⟩

/-- C7 (amended): end of input immediately after `$` gives
ExpectedRegisterFoundEOF at the position just past the `$` (for every state
with nothing left, hence for the whole-input "$"); end of input right after
"$r" instead gives InvalidRegister over the `r`; the EOF error also arises
with the post-`$` position when the input ends right after a valid two-letter
head such as "$rf". -/
theorem c7_register_eof_positions :
    (∀ (fuel : Nat) (l : Lexer), l.remaining_length = 0 →
      process_register fuel l = some (.error (.ExpectedRegisterFoundEOF l.current_position))) ∧
    tokenize ['$'] = some (.error (.ExpectedRegisterFoundEOF ⟨1, 0, 1⟩)) ∧
    tokenize ['$', 'r'] = some (.error (.InvalidRegister ⟨⟨1, 0, 1⟩, ⟨2, 0, 2⟩⟩)) ∧
    tokenize ['$', 'r', 'f'] = some (.error (.ExpectedRegisterFoundEOF ⟨1, 0, 1⟩)) := by
  refine ⟨?_, by rfl, by rfl, by rfl⟩
  intro fuel l h
  simp only [process_register]
  rw [if_pos h]

/-- C7 witness: the EOF branch of the amended statement applied to the
concrete post-`$` state of the input "$". -/
theorem c7_register_eof_positions_witness :
    process_register 1 ⟨['$'], [], 1, 0, 1, .Unsigned⟩
      = some (.error (.ExpectedRegisterFoundEOF ⟨1, 0, 1⟩)) :=
  c7_register_eof_positions.1 1 ⟨['$'], [], 1, 0, 1, .Unsigned⟩ (by rfl)

/-! ## Claim C10 -/

/-- C10 counterexample: the signed parser is claimed to emit a token only
when the digit-run magnitude fits in an i64; lexing "0i-" followed by twenty
nines (magnitude 10^20 - 1, far above i64::MAX) nevertheless succeeds with a
wrapped SignedIntegerLiteral, because the unchecked multiplication by ten
wraps before the checked addition can see the overflow. -/
theorem c10_overlarge_magnitude_token_emitted :
    tokenize ("0i-".toList ++ List.replicate 20 '9')
      = some (.ok [⟨.SignedIntegerLiteral (-7766279631452241919), ⟨⟨2, 0, 2⟩, ⟨23, 0, 23⟩⟩⟩]) ∧
    i64Max < (decValue (List.replicate 20 '9') : Int) :=
  ⟨by rfl, by decide⟩

/-- C10 (amended): overflow of the signed accumulator is detected only by the
checked addition; for "-9223372036854775808" (magnitude 2^63, exactly the
representable i64 minimum) the final checked addition does trip, so the
literal is rejected with InvalidSignedIntegerLiteral as the claim's example
states — over the range [1,21), which the code computes before consuming the
offending digit. -/
theorem c10_min_i64_magnitude_rejected :
    tokenize "0i-9223372036854775808".toList
      = some (.error (.InvalidSignedIntegerLiteral ⟨⟨1, 0, 1⟩, ⟨21, 0, 21⟩⟩)) ∧
    i64Min = -(9223372036854775808 : Int) :=
  ⟨by rfl, by decide⟩

/-! ## Claim C8 -/

/-- C8: whenever the unsigned-literal parser consumes zero decimal digits
(the cursor does not face a decimal digit), it fails with the
InvalidSignedIntegerLiteral variant — not the unsigned one — carrying a
zero-width range whose start and end are both the current cursor position,
exactly as the claim states. -/
theorem c8_unsigned_zero_digits_signed_error_variant :
    ∀ (fuel : Nat) (l : Lexer), 1 ≤ fuel →
    (∀ c, l.current = some c → isDigitR 10 c = false) →
    process_unsigned fuel l
      = some (.error (.InvalidSignedIntegerLiteral ⟨l.current_position, l.current_position⟩)) := by
  intro fuel l hf hd
  obtain _ | f := fuel
  · exact absurd hf (by omega)
  · show unsignedLoop (f + 1) l 0 0 = _
    cases hc : l.current with
    | none =>
      simp only [unsignedLoop, hc]
      rfl
    | some c =>
      have hdc := hd c hc
      simp only [unsignedLoop, hc]
      rw [if_neg (by rw [hdc]; exact Bool.false_ne_true)]
      rfl

/-- C8 witness: the zero-digit failure at the end of the concrete input
"0u", cursor at offset 2. -/
theorem c8_unsigned_zero_digits_signed_error_variant_witness :
    process_unsigned 1 ⟨['0', 'u'], [], 2, 0, 2, .Unsigned⟩
      = some (.error (.InvalidSignedIntegerLiteral ⟨⟨2, 0, 2⟩, ⟨2, 0, 2⟩⟩)) :=
  c8_unsigned_zero_digits_signed_error_variant 1 ⟨['0', 'u'], [], 2, 0, 2, .Unsigned⟩
    (by omega) (fun c hc => nomatch hc)

/-! ## Claim C9 -/

/-- C9: when `0b` is followed by no binary digit the binary parser succeeds,
emitting UnsignedIntegerLiteral 0 with a zero-width range at the cursor — the
empty binary run is an implicit zero — whereas the hex parser on an empty
digit run fails with InvalidHexLiteral over the same zero-width range. -/
theorem c9_empty_binary_is_zero_but_empty_hex_fails :
    ∀ (fuel : Nat) (l m : Lexer), 1 ≤ fuel →
    (∀ c, l.current = some c → isDigitR 2 c = false) →
    (∀ c, m.current = some c → isDigitR 16 c = false) →
    process_binary fuel l
        = some (.ok (l.push ⟨.UnsignedIntegerLiteral 0, ⟨l.current_position, l.current_position⟩⟩)) ∧
    process_hex fuel m
        = some (.error (.InvalidHexLiteral ⟨m.current_position, m.current_position⟩)) := by
  intro fuel l m hf hb hx
  obtain _ | f := fuel
  · exact absurd hf (by omega)
  constructor
  · show binLoop (f + 1) l 0 0 = _
    cases hc : l.current with
    | none =>
      simp only [binLoop, hc]
      rfl
    | some c =>
      have hdc := hb c hc
      simp only [binLoop, hc]
      rw [if_neg (by rw [hdc]; exact Bool.false_ne_true)]
      rfl
  · show hexLoop (f + 1) m 0 = _
    have hrs : rangeString m.chars (m.current_range 0) = [] := by
      simp [rangeString, Lexer.current_range]
    have hfin : hexFinish m 0
        = .error (.InvalidHexLiteral ⟨m.current_position, m.current_position⟩) := by
      simp only [hexFinish, hrs]
      rfl
    cases hc : m.current with
    | none =>
      simp only [hexLoop, hc, hfin]
    | some c =>
      have hdc := hx c hc
      simp only [hexLoop, hc]
      rw [if_neg (by rw [hdc]; exact Bool.false_ne_true), hfin]

/-- C9 witness: the states just after the prefixes of the whole inputs "0b"
and "0x". -/
theorem c9_empty_binary_is_zero_but_empty_hex_fails_witness :
    process_binary 1 ⟨['0', 'b'], [], 2, 0, 2, .Unsigned⟩
        = some (.ok ⟨['0', 'b'],
            [⟨.UnsignedIntegerLiteral 0, ⟨⟨2, 0, 2⟩, ⟨2, 0, 2⟩⟩⟩], 2, 0, 2, .Unsigned⟩) ∧
    process_hex 1 ⟨['0', 'x'], [], 2, 0, 2, .Unsigned⟩
        = some (.error (.InvalidHexLiteral ⟨⟨2, 0, 2⟩, ⟨2, 0, 2⟩⟩)) := by
  have h := c9_empty_binary_is_zero_but_empty_hex_fails 1
    ⟨['0', 'b'], [], 2, 0, 2, .Unsigned⟩ ⟨['0', 'x'], [], 2, 0, 2, .Unsigned⟩
    (by omega) (fun c hc => nomatch hc) (fun c hc => nomatch hc)
  exact ⟨h.1, h.2⟩

/-! ## Claim C4 -/

theorem hexFinish_ok (l : Lexer) (len : Nat) (l2 : Lexer)
    (h : hexFinish l len = .ok l2) :
    ∃ t : Token, l2.tokens = l.tokens ++ [t] ∧
      t.range.start.idx = l.index - len ∧ t.range.stop.idx = l2.index := by
  cases hu : u64_from_str_radix (rangeString l.chars (l.current_range len)) 16 with
  | none =>
    simp only [hexFinish, hu] at h
    exact Except.noConfusion h
  | some n =>
    simp only [hexFinish, hu] at h
    injection h with h2
    exact ⟨⟨.UnsignedIntegerLiteral n, l.current_range len⟩,
      by rw [← h2]; rfl, rfl, by rw [← h2]; rfl⟩

theorem hexLoop_ok_appends : ∀ (fuel : Nat) (l : Lexer) (len : Nat) (l2 : Lexer),
    hexLoop fuel l len = some (.ok l2) →
    ∃ t : Token, l2.tokens = l.tokens ++ [t] ∧
      t.range.start.idx = l.index - len ∧ t.range.stop.idx = l2.index := by
  intro fuel
  induction fuel with
  | zero => intro l len l2 h; exact Option.noConfusion h
  | succ f ih =>
    intro l len l2 h
    cases hc : l.current with
    | none =>
      simp only [hexLoop, hc] at h
      injection h with h2
      exact hexFinish_ok l len l2 h2
    | some c =>
      by_cases hd : isDigitR 16 c = true
      · simp only [hexLoop, hc] at h
        rw [if_pos hd] at h
        obtain ⟨t, ht, hs, hp⟩ := ih l.increment (len + 1) l2 h
        refine ⟨t, ht, ?_, hp⟩
        simp only [Lexer.increment] at hs
        rw [hs]
        omega
      · simp only [hexLoop, hc] at h
        rw [if_neg hd] at h
        injection h with h2
        exact hexFinish_ok l len l2 h2

theorem unsignedFinish_ok (l : Lexer) (n len : Nat) (l2 : Lexer)
    (h : unsignedFinish l n len = .ok l2) :
    ∃ t : Token, l2.tokens = l.tokens ++ [t] ∧
      t.range.start.idx = l.index - len ∧ t.range.stop.idx = l2.index := by
  by_cases h0 : len = 0
  · simp only [unsignedFinish] at h
    rw [if_pos h0] at h
    exact Except.noConfusion h
  · simp only [unsignedFinish] at h
    rw [if_neg h0] at h
    injection h with h2
    exact ⟨l.new_token (.UnsignedIntegerLiteral n) len,
      by rw [← h2]; rfl, rfl, by rw [← h2]; rfl⟩

theorem unsignedLoop_ok_appends : ∀ (fuel : Nat) (l : Lexer) (n len : Nat) (l2 : Lexer),
    unsignedLoop fuel l n len = some (.ok l2) →
    ∃ t : Token, l2.tokens = l.tokens ++ [t] ∧
      t.range.start.idx = l.index - len ∧ t.range.stop.idx = l2.index := by
  intro fuel
  induction fuel with
  | zero => intro l n len l2 h; exact Option.noConfusion h
  | succ f ih =>
    intro l n len l2 h
    cases hc : l.current with
    | none =>
      simp only [unsignedLoop, hc] at h
      injection h with h2
      exact unsignedFinish_ok l n len l2 h2
    | some c =>
      by_cases hd : isDigitR 10 c = true
      · simp only [unsignedLoop, hc] at h
        rw [if_pos hd] at h
        by_cases hn : n = 0
        · rw [if_pos hn] at h
          obtain ⟨t, ht, hs, hp⟩ := ih l.increment (digitVal 10 c) (len + 1) l2 h
          refine ⟨t, ht, ?_, hp⟩
          simp only [Lexer.increment] at hs
          rw [hs]
          omega
        · rw [if_neg hn] at h
          cases hadd : checkedAddU64 (wrapU64 (n * 10)) (digitVal 10 c) with
          | none =>
            simp only [hadd] at h
            exact absurd h (by simp)
          | some m2 =>
            simp only [hadd] at h
            obtain ⟨t, ht, hs, hp⟩ := ih l.increment m2 (len + 1) l2 h
            refine ⟨t, ht, ?_, hp⟩
            simp only [Lexer.increment] at hs
            rw [hs]
            omega
      · simp only [unsignedLoop, hc] at h
        rw [if_neg hd] at h
        injection h with h2
        exact unsignedFinish_ok l n len l2 h2

theorem binLoop_ok_appends : ∀ (fuel : Nat) (l : Lexer) (n len : Nat) (l2 : Lexer),
    binLoop fuel l n len = some (.ok l2) →
    ∃ t : Token, l2.tokens = l.tokens ++ [t] ∧
      t.range.start.idx = l.index - len ∧ t.range.stop.idx = l2.index := by
  intro fuel
  induction fuel with
  | zero => intro l n len l2 h; exact Option.noConfusion h
  | succ f ih =>
    intro l n len l2 h
    cases hc : l.current with
    | none =>
      simp only [binLoop, hc, Option.some.injEq, Except.ok.injEq] at h
      exact ⟨l.new_token (.UnsignedIntegerLiteral n) len,
        by rw [← h]; rfl, rfl, by rw [← h]; rfl⟩
    | some c =>
      simp only [binLoop, hc] at h
      by_cases hd : isDigitR 2 c = true
      · rw [if_pos hd] at h
        by_cases h64 : len = 64
        · rw [if_pos h64] at h
          simp at h
        · rw [if_neg h64] at h
          obtain ⟨t, ht, hs, hp⟩ := ih l.increment _ (len + 1) l2 h
          refine ⟨t, ht, ?_, hp⟩
          simp only [Lexer.increment] at hs
          rw [hs]
          omega
      · rw [if_neg hd] at h
        simp only [Option.some.injEq, Except.ok.injEq] at h
        exact ⟨l.new_token (.UnsignedIntegerLiteral n) len,
          by rw [← h]; rfl, rfl, by rw [← h]; rfl⟩

theorem signedFinish_ok (l : Lexer) (negative : Bool) (n : Int) (len : Nat) (l2 : Lexer)
    (h : signedFinish l negative n len = .ok l2) :
    ∃ t : Token, l2.tokens = l.tokens ++ [t] ∧
      t.range.start.idx = l.index - len ∧ t.range.stop.idx = l2.index := by
  by_cases h0 : len = 0
  · simp only [signedFinish] at h
    rw [if_pos h0] at h
    exact Except.noConfusion h
  · simp only [signedFinish] at h
    rw [if_neg h0] at h
    injection h with h2
    exact ⟨l.new_token (.SignedIntegerLiteral (if negative then wrapI64 (-n) else n)) len,
      by rw [← h2]; rfl, rfl, by rw [← h2]; rfl⟩

theorem signedLoop_ok_appends : ∀ (fuel : Nat) (l : Lexer) (negative : Bool) (n : Int)
    (len : Nat) (l2 : Lexer),
    signedLoop fuel l negative n len = some (.ok l2) →
    ∃ t : Token, l2.tokens = l.tokens ++ [t] ∧
      t.range.start.idx = l.index - len ∧ t.range.stop.idx = l2.index := by
  intro fuel
  induction fuel with
  | zero => intro l negative n len l2 h; exact Option.noConfusion h
  | succ f ih =>
    intro l negative n len l2 h
    cases hc : l.current with
    | none =>
      simp only [signedLoop, hc] at h
      injection h with h2
      exact signedFinish_ok l negative n len l2 h2
    | some c =>
      simp only [signedLoop, hc] at h
      by_cases hd : isDigitR 10 c = true
      · rw [if_pos hd] at h
        by_cases hn : n = 0
        · rw [if_pos hn] at h
          obtain ⟨t, ht, hs, hp⟩ := ih l.increment negative _ (len + 1) l2 h
          refine ⟨t, ht, ?_, hp⟩
          simp only [Lexer.increment] at hs
          rw [hs]
          omega
        · rw [if_neg hn] at h
          cases hadd : checkedAddI64 (wrapI64 (n * 10)) (digitVal 10 c : Int) with
          | none =>
            simp only [hadd] at h
            exact absurd h (by simp)
          | some m2 =>
            simp only [hadd] at h
            obtain ⟨t, ht, hs, hp⟩ := ih l.increment negative m2 (len + 1) l2 h
            refine ⟨t, ht, ?_, hp⟩
            simp only [Lexer.increment] at hs
            rw [hs]
            omega
      · rw [if_neg hd] at h
        injection h with h2
        exact signedFinish_ok l negative n len l2 h2

theorem process_signed_ok_appends : ∀ (fuel : Nat) (l l2 : Lexer),
    process_signed fuel l = some (.ok l2) → appendsExactRange l l2 := by
  intro fuel l l2 h
  simp only [process_signed] at h
  by_cases hm : l.current = some '-'
  · rw [if_pos hm] at h
    obtain ⟨t, ht, hs, hp⟩ := signedLoop_ok_appends fuel l.increment true 0 1 l2 h
    refine ⟨t, ht, ?_, hp⟩
    simp only [Lexer.increment] at hs
    rw [hs]
    omega
  · rw [if_neg hm] at h
    exact signedLoop_ok_appends fuel l false 0 0 l2 h

theorem directiveFinish_ok (l : Lexer) (len : Nat) (l2 : Lexer)
    (h : directiveFinish l len = .ok l2) :
    ∃ t : Token, l2.tokens = l.tokens ++ [t] ∧
      t.range.start.idx = l.index - len ∧ t.range.stop.idx = l2.index := by
  by_cases h0 : len = 0
  · simp only [directiveFinish] at h
    rw [if_pos h0] at h
    exact Except.noConfusion h
  · simp only [directiveFinish] at h
    rw [if_neg h0] at h
    cases hm : matchIdentifier (rangeString l.chars (l.current_range len)) with
    | none =>
      simp only [hm] at h
      exact Except.noConfusion h
    | some identifier =>
      simp only [hm] at h
      injection h with h2
      exact ⟨⟨identifier, l.current_range len⟩,
        by rw [← h2]; rfl, rfl, by rw [← h2]; rfl⟩

theorem directiveLoop_ok_appends : ∀ (fuel : Nat) (l : Lexer) (len : Nat) (l2 : Lexer),
    directiveLoop fuel l len = some (.ok l2) →
    ∃ t : Token, l2.tokens = l.tokens ++ [t] ∧
      t.range.start.idx = l.index - len ∧ t.range.stop.idx = l2.index := by
  intro fuel
  induction fuel with
  | zero => intro l len l2 h; exact Option.noConfusion h
  | succ f ih =>
    intro l len l2 h
    cases hc : l.current with
    | none =>
      simp only [directiveLoop, hc] at h
      injection h with h2
      exact directiveFinish_ok l len l2 h2
    | some c =>
      simp only [directiveLoop, hc] at h
      split at h
      · obtain ⟨t, ht, hs, hp⟩ := ih l.increment (len + 1) l2 h
        refine ⟨t, ht, ?_, hp⟩
        simp only [Lexer.increment] at hs
        rw [hs]
        omega
      · injection h with h2
        exact directiveFinish_ok l len l2 h2

theorem identFinish_ok (l : Lexer) (len : Nat) (po : Bool) (l2 : Lexer)
    (h : identFinish l len po = .ok l2) :
    ∃ t : Token, l2.tokens = l.tokens ++ [t] ∧
      t.range.start.idx = l.index - len ∧ t.range.stop.idx = l2.index := by
  by_cases h0 : len = 0
  · simp only [identFinish] at h
    rw [if_pos h0] at h
    exact Except.noConfusion h
  · simp only [identFinish] at h
    rw [if_neg h0] at h
    by_cases hpo : po = true
    · rw [if_pos hpo] at h
      cases hm : instructionFromString (rangeString l.chars (l.current_range len)) with
      | some code =>
        simp only [hm] at h
        injection h with h2
        exact ⟨l.new_token (.Opcode code) len, by rw [← h2]; rfl, rfl, by rw [← h2]; rfl⟩
      | none =>
        simp only [hm] at h
        injection h with h2
        exact ⟨l.new_token .Identifier len, by rw [← h2]; rfl, rfl, by rw [← h2]; rfl⟩
    · rw [if_neg hpo] at h
      injection h with h2
      exact ⟨l.new_token .Identifier len, by rw [← h2]; rfl, rfl, by rw [← h2]; rfl⟩

theorem identLoop_ok_appends : ∀ (fuel : Nat) (l : Lexer) (len : Nat) (po : Bool) (l2 : Lexer),
    identLoop fuel l len po = some (.ok l2) →
    ∃ t : Token, l2.tokens = l.tokens ++ [t] ∧
      t.range.start.idx = l.index - len ∧ t.range.stop.idx = l2.index := by
  intro fuel
  induction fuel with
  | zero => intro l len po l2 h; exact Option.noConfusion h
  | succ f ih =>
    intro l len po l2 h
    cases hc : l.current with
    | none =>
      simp only [identLoop, hc] at h
      injection h with h2
      exact identFinish_ok l len po l2 h2
    | some c =>
      simp only [identLoop, hc] at h
      split at h
      · obtain ⟨t, ht, hs, hp⟩ := ih l.increment (len + 1) _ l2 h
        refine ⟨t, ht, ?_, hp⟩
        simp only [Lexer.increment] at hs
        rw [hs]
        omega
      · injection h with h2
        exact identFinish_ok l len po l2 h2

theorem consumeUntil_spec : ∀ (fuel : Nat) (l : Lexer) (p : Position) (l2 : Lexer),
    consumeUntilEndIdentifier fuel l = some (p, l2) →
    p.idx = l2.index ∧ l2.tokens = l.tokens := by
  intro fuel
  induction fuel with
  | zero => intro l p l2 h; exact Option.noConfusion h
  | succ f ih =>
    intro l p l2 h
    cases hc : l.current with
    | none =>
      simp only [consumeUntilEndIdentifier, hc, Option.some.injEq, Prod.mk.injEq] at h
      obtain ⟨h1, h2⟩ := h
      subst h2
      exact ⟨by rw [← h1]; rfl, rfl⟩
    | some c =>
      simp only [consumeUntilEndIdentifier, hc] at h
      by_cases ha : isRustAlphanumeric c = true
      · rw [if_pos ha] at h
        obtain ⟨h1, h2⟩ := ih l.increment p l2 h
        exact ⟨h1, h2⟩
      · rw [if_neg ha] at h
        simp only [Option.some.injEq, Prod.mk.injEq] at h
        obtain ⟨h1, h2⟩ := h
        subst h2
        exact ⟨by rw [← h1]; rfl, rfl⟩

theorem len3Alts_ok : ∀ (fuel : Nat) (l : Lexer) (sp : Position) (alts : List (Char × Reg))
    (l2 : Lexer) (reg : Reg) (len : Nat),
    len3Alts fuel l sp alts = some (.ok (l2, reg, len)) →
    l2.tokens = l.tokens ∧ l2.index = l.index + 1 ∧ len = 3 := by
  intro fuel l sp alts
  induction alts with
  | nil =>
    intro l2 reg len h
    simp only [len3Alts] at h
    cases hcu : consumeUntilEndIdentifier fuel l with
    | none =>
      simp only [hcu] at h
      exact Option.noConfusion h
    | some pr =>
      obtain ⟨p, lx⟩ := pr
      simp only [hcu] at h
      simp at h
  | cons a rest ih =>
    intro l2 reg len h
    obtain ⟨ch, r⟩ := a
    simp only [len3Alts] at h
    by_cases hc : l.current = some ch
    · rw [if_pos hc] at h
      simp only [Option.some.injEq, Except.ok.injEq, Prod.mk.injEq] at h
      obtain ⟨h1, _, h3⟩ := h
      subst h1
      subst h3
      exact ⟨rfl, rfl, rfl⟩
    · rw [if_neg hc] at h
      exact ih l2 reg len h

theorem len_3_reg_ok : ∀ (fuel : Nat) (l : Lexer) (sp : Position)
    (alts : List (Char × Reg)) (l2 : Lexer) (reg : Reg) (len : Nat),
    len_3_reg fuel l sp alts = some (.ok (l2, reg, len)) →
    l2.tokens = l.tokens ∧ l2.index = l.index + 2 ∧ len = 3 := by
  intro fuel l sp alts l2 reg len h
  simp only [len_3_reg] at h
  cases hc : (l.increment).current with
  | none =>
    simp only [hc] at h
    simp at h
  | some c =>
    simp only [hc] at h
    obtain ⟨htk, hidx, hlen⟩ := len3Alts_ok fuel l.increment sp alts l2 reg len h
    refine ⟨htk, ?_, hlen⟩
    simp only [Lexer.increment] at hidx
    omega

theorem registerMatch_ok : ∀ (fuel : Nat) (l : Lexer) (sp : Position) (l2 : Lexer)
    (reg : Reg) (len : Nat),
    registerMatch fuel l sp = some (.ok (l2, reg, len)) →
    l2.tokens = l.tokens ∧ l2.index + 1 = l.index + len := by
  intro fuel l sp l2 reg len h
  cases hc : l.current with
  | none =>
    simp only [registerMatch, hc] at h
    simp at h
  | some c =>
    simp only [registerMatch, hc] at h
    by_cases hf : c = 'f'
    · rw [if_pos hf] at h
      obtain ⟨htk, hidx, hlen⟩ := len_3_reg_ok fuel l sp _ l2 reg len h
      exact ⟨htk, by omega⟩
    · rw [if_neg hf] at h
      by_cases hs2 : c = 's'
      · rw [if_pos hs2] at h
        obtain ⟨htk, hidx, hlen⟩ := len_3_reg_ok fuel l sp _ l2 reg len h
        exact ⟨htk, by omega⟩
      · rw [if_neg hs2] at h
        by_cases ho : c = 'o'
        · rw [if_pos ho] at h
          obtain ⟨htk, hidx, hlen⟩ := len_3_reg_ok fuel l sp _ l2 reg len h
          exact ⟨htk, by omega⟩
        · rw [if_neg ho] at h
          by_cases hr : c = 'r'
          · rw [if_pos hr] at h
            obtain ⟨htk, hidx, hlen⟩ := len_3_reg_ok fuel l sp _ l2 reg len h
            exact ⟨htk, by omega⟩
          · rw [if_neg hr] at h
            by_cases hd : isDigitR 10 c = true
            · rw [if_pos hd] at h
              cases hcu : consumeUntilEndIdentifier fuel l.increment with
              | none =>
                simp only [hcu] at h
                exact Option.noConfusion h
              | some pr =>
                obtain ⟨endPos, lx⟩ := pr
                simp only [hcu] at h
                by_cases hne : endPos ≠ (l.increment).current_position
                · rw [if_pos hne] at h
                  simp at h
                · rw [if_neg hne] at h
                  have heq : endPos = (l.increment).current_position := not_not.mp hne
                  obtain ⟨hpi, htk⟩ := consumeUntil_spec fuel l.increment endPos lx hcu
                  simp only [Option.some.injEq, Except.ok.injEq, Prod.mk.injEq] at h
                  obtain ⟨hx1, _, hx3⟩ := h
                  subst hx1
                  subst hx3
                  refine ⟨htk, ?_⟩
                  have hxi : lx.index = l.index + 1 := by
                    rw [← hpi, heq]
                    rfl
                  omega
            · rw [if_neg hd] at h
              cases hcu : consumeUntilEndIdentifier fuel l with
              | none =>
                simp only [hcu] at h
                exact Option.noConfusion h
              | some pr =>
                obtain ⟨p, lx⟩ := pr
                simp only [hcu] at h
                simp at h

theorem process_register_ok_appends : ∀ (fuel : Nat) (l l2 : Lexer),
    process_register fuel l = some (.ok l2) → appendsExactRange l l2 := by
  intro fuel l l2 h
  simp only [process_register] at h
  by_cases h0 : l.remaining_length = 0
  · rw [if_pos h0] at h
    simp at h
  · rw [if_neg h0] at h
    by_cases h1 : l.remaining_length < 2
    · rw [if_pos h1] at h
      cases hcu : consumeUntilEndIdentifier fuel l with
      | none =>
        simp only [hcu] at h
        exact Option.noConfusion h
      | some pr =>
        obtain ⟨p, lx⟩ := pr
        simp only [hcu] at h
        simp at h
    · rw [if_neg h1] at h
      by_cases h2 : l.current ≠ some 'r'
      · rw [if_pos h2] at h
        cases hcu : consumeUntilEndIdentifier fuel l with
        | none =>
          simp only [hcu] at h
          exact Option.noConfusion h
        | some pr =>
          obtain ⟨p, lx⟩ := pr
          simp only [hcu] at h
          simp at h
      · rw [if_neg h2] at h
        cases hrm : registerMatch fuel l.increment l.current_position with
        | none =>
          simp only [hrm] at h
          exact Option.noConfusion h
        | some r =>
          cases r with
          | error e =>
            simp only [hrm] at h
            simp at h
          | ok y =>
            obtain ⟨lx, reg, len⟩ := y
            simp only [hrm, Option.some.injEq, Except.ok.injEq] at h
            obtain ⟨htk, hidx⟩ :=
              registerMatch_ok fuel l.increment l.current_position lx reg len hrm
            have htk2 : lx.tokens = l.tokens := htk
            have hidx2 : lx.index + 1 = l.index + 1 + len := hidx
            refine ⟨lx.new_token (.Register reg) len, ?_, ?_, ?_⟩
            · rw [← h]
              simp only [Lexer.push]
              rw [htk2]
            · show lx.index - len = l.index
              omega
            · rw [← h]
              rfl

/-- C4 (amended): every emitted token's range covers exactly the characters
consumed by the code path that produced it, so characters consumed by the
driver's dispatch are excluded: the two-character `0x`/`0b`/`0i`/`0u`
prefixes, the `$` of registers and the `%` of directives lie outside the
range, while identifiers/opcodes, unprefixed numeric literals (sign
included) and the Comma/Colon punctuation are covered in full.  Each
sub-parser, on success, appends exactly one token whose range runs from the
cursor at its entry to the cursor at its exit, and the driver's Comma and
Colon arms push a token covering exactly the one consumed character. -/
theorem c4_range_covers_exactly_subparser_consumption :
    (∀ (fuel : Nat) (l l2 : Lexer),
      process_hex fuel l = some (.ok l2) → appendsExactRange l l2) ∧
    (∀ (fuel : Nat) (l l2 : Lexer),
      process_binary fuel l = some (.ok l2) → appendsExactRange l l2) ∧
    (∀ (fuel : Nat) (l l2 : Lexer),
      process_signed fuel l = some (.ok l2) → appendsExactRange l l2) ∧
    (∀ (fuel : Nat) (l l2 : Lexer),
      process_unsigned fuel l = some (.ok l2) → appendsExactRange l l2) ∧
    (∀ (fuel : Nat) (l l2 : Lexer),
      process_register fuel l = some (.ok l2) → appendsExactRange l l2) ∧
    (∀ (fuel : Nat) (l l2 : Lexer),
      process_directive fuel l = some (.ok l2) → appendsExactRange l l2) ∧
    (∀ (fuel : Nat) (l l2 : Lexer),
      process_identifier fuel l = some (.ok l2) → appendsExactRange l l2) ∧
    (∀ l : Lexer, appendsExactRange l (l.increment.push (l.increment.new_token .Comma 1))) ∧
    (∀ l : Lexer, appendsExactRange l (l.increment.push (l.increment.new_token .Colon 1))) := by
  refine ⟨?_, ?_, ?_, ?_, ?_, ?_, ?_, ?_, ?_⟩
  · intro fuel l l2 h
    exact hexLoop_ok_appends fuel l 0 l2 h
  · intro fuel l l2 h
    exact binLoop_ok_appends fuel l 0 0 l2 h
  · intro fuel l l2 h
    exact process_signed_ok_appends fuel l l2 h
  · intro fuel l l2 h
    exact unsignedLoop_ok_appends fuel l 0 0 l2 h
  · intro fuel l l2 h
    exact process_register_ok_appends fuel l l2 h
  · intro fuel l l2 h
    exact directiveLoop_ok_appends fuel l 0 l2 h
  · intro fuel l l2 h
    exact identLoop_ok_appends fuel l 0 true l2 h
  · intro l
    exact ⟨l.increment.new_token .Comma 1, rfl, rfl, rfl⟩
  · intro l
    exact ⟨l.increment.new_token .Colon 1, rfl, rfl, rfl⟩

/-- C4 witness: the amended statement applied to concrete successes of all
nine token-producing paths — hex "0x2a" (range [2,4), prefix excluded),
binary "0b10" (range [2,4)), signed "0i-7" (range [2,4), sign covered),
unsigned "52" (full lexeme [0,2)), register "$r0" (range [1,3), `$`
excluded), directive "%if" (range [1,3), `%` excluded), identifier "MAIN"
(full lexeme [0,4)), and the Comma/Colon arms. -/
theorem c4_range_covers_exactly_subparser_consumption_witness :
    appendsExactRange ⟨['0', 'x', '2', 'a'], [], 2, 0, 2, .Unsigned⟩
      ⟨['0', 'x', '2', 'a'],
        [⟨.UnsignedIntegerLiteral 42, ⟨⟨2, 0, 2⟩, ⟨4, 0, 4⟩⟩⟩], 4, 0, 4, .Unsigned⟩ ∧
    appendsExactRange ⟨['0', 'b', '1', '0'], [], 2, 0, 2, .Unsigned⟩
      ⟨['0', 'b', '1', '0'],
        [⟨.UnsignedIntegerLiteral 2, ⟨⟨2, 0, 2⟩, ⟨4, 0, 4⟩⟩⟩], 4, 0, 4, .Unsigned⟩ ∧
    appendsExactRange ⟨['0', 'i', '-', '7'], [], 2, 0, 2, .Unsigned⟩
      ⟨['0', 'i', '-', '7'],
        [⟨.SignedIntegerLiteral (-7), ⟨⟨2, 0, 2⟩, ⟨4, 0, 4⟩⟩⟩], 4, 0, 4, .Unsigned⟩ ∧
    appendsExactRange ⟨['5', '2'], [], 0, 0, 0, .Unsigned⟩
      ⟨['5', '2'],
        [⟨.UnsignedIntegerLiteral 52, ⟨⟨0, 0, 0⟩, ⟨2, 0, 2⟩⟩⟩], 2, 0, 2, .Unsigned⟩ ∧
    appendsExactRange ⟨['$', 'r', '0'], [], 1, 0, 1, .Unsigned⟩
      ⟨['$', 'r', '0'],
        [⟨.Register .R0, ⟨⟨1, 0, 1⟩, ⟨3, 0, 3⟩⟩⟩], 3, 0, 3, .Unsigned⟩ ∧
    appendsExactRange ⟨['%', 'i', 'f'], [], 1, 0, 1, .Unsigned⟩
      ⟨['%', 'i', 'f'], [⟨.If, ⟨⟨1, 0, 1⟩, ⟨3, 0, 3⟩⟩⟩], 3, 0, 3, .Unsigned⟩ ∧
    appendsExactRange ⟨['M', 'A', 'I', 'N'], [], 0, 0, 0, .Unsigned⟩
      ⟨['M', 'A', 'I', 'N'],
        [⟨.Identifier, ⟨⟨0, 0, 0⟩, ⟨4, 0, 4⟩⟩⟩], 4, 0, 4, .Unsigned⟩ ∧
    appendsExactRange ⟨[','], [], 0, 0, 0, .Unsigned⟩
      ⟨[','], [⟨.Comma, ⟨⟨0, 0, 0⟩, ⟨1, 0, 1⟩⟩⟩], 1, 0, 1, .Unsigned⟩ ∧
    appendsExactRange ⟨[':'], [], 0, 0, 0, .Unsigned⟩
      ⟨[':'], [⟨.Colon, ⟨⟨0, 0, 0⟩, ⟨1, 0, 1⟩⟩⟩], 1, 0, 1, .Unsigned⟩ := by
  have h := c4_range_covers_exactly_subparser_consumption
  exact ⟨h.1 5 _ _ (by rfl),
    h.2.1 5 _ _ (by rfl),
    h.2.2.1 5 _ _ (by rfl),
    h.2.2.2.1 4 _ _ (by rfl),
    h.2.2.2.2.1 5 _ _ (by rfl),
    h.2.2.2.2.2.1 5 _ _ (by rfl),
    h.2.2.2.2.2.2.1 5 _ _ (by rfl),
    h.2.2.2.2.2.2.2.1 ⟨[','], [], 0, 0, 0, .Unsigned⟩,
    h.2.2.2.2.2.2.2.2 ⟨[':'], [], 0, 0, 0, .Unsigned⟩⟩

/-! ## Claim C6 -/

theorem binLoop_sees_65th_digit : ∀ (ds pre rest : List Char) (tks : List Token)
    (row col : Nat) (mode : NumericType) (n len fuel : Nat),
    (∀ c ∈ ds, isDigitR 2 c = true) → len + ds.length = 65 → len ≤ 64 →
    ds.length ≤ fuel →
    binLoop fuel ⟨pre ++ (ds ++ rest), tks, pre.length, row, col, mode⟩ n len
      = some (.error (.InvalidBinaryLiteral
          ⟨⟨pre.length + ds.length - 64, row, col + ds.length - 64⟩,
           ⟨pre.length + ds.length, row, col + ds.length⟩⟩)) := by
  intro ds
  induction ds with
  | nil =>
    intro pre rest tks row col mode n len fuel _ hlen hle _
    simp only [List.length_nil] at hlen
    exact absurd hle (by omega)
  | cons c cs ih =>
    intro pre rest tks row col mode n len fuel hds hlen hle hfuel
    obtain _ | f := fuel
    · exact absurd hfuel (by simp only [List.length_cons]; omega)
    · have hcur : (⟨pre ++ ((c :: cs) ++ rest), tks, pre.length, row, col, mode⟩ : Lexer).current
          = some c := get?_append_head pre ((c :: cs) ++ rest)
      have hdc : isDigitR 2 c = true := hds c (List.mem_cons_self c cs)
      simp only [binLoop, hcur]
      rw [if_pos hdc]
      by_cases h64 : len = 64
      · have hcs : cs.length = 0 := by simp only [List.length_cons] at hlen; omega
        rw [if_pos h64]
        subst h64
        have hnil : cs = [] := List.length_eq_zero.mp hcs
        subst hnil
        rfl
      · rw [if_neg h64]
        have hre : (⟨pre ++ ((c :: cs) ++ rest), tks, pre.length, row, col, mode⟩ : Lexer).increment
            = ⟨(pre ++ [c]) ++ (cs ++ rest), tks, (pre ++ [c]).length, row, col + 1, mode⟩ := by
          simp [Lexer.increment]
        rw [hre]
        rw [ih (pre ++ [c]) rest tks row (col + 1) mode _ (len + 1) f
          (fun x hx => hds x (List.mem_cons_of_mem c hx))
          (by simp only [List.length_cons] at hlen; omega)
          (by omega)
          (by simp only [List.length_cons] at hfuel; omega)]
        have e1 : (pre ++ [c]).length + cs.length = pre.length + (c :: cs).length := by
          simp only [List.length_append, List.length_cons, List.length_nil]; omega
        have e2 : col + 1 + cs.length = col + (c :: cs).length := by
          simp only [List.length_cons]; omega
        rw [e1, e2]

/-- C6 (amended): when the binary parser meets a sixty-fifth binary digit it
fails with InvalidBinaryLiteral, but — because the cursor is advanced past
the offending digit before the 64-long range is taken — the error range
starts at the *second* digit of the run (one past the run's first digit) and
ends just after the 65th digit, covering 64 characters, not 65. -/
theorem c6_binary_65th_digit_error_range :
    ∀ (pre ds rest : List Char) (tks : List Token) (row col : Nat)
      (mode : NumericType) (fuel : Nat),
      ds.length = 65 → (∀ c ∈ ds, isDigitR 2 c = true) → 65 ≤ fuel →
      process_binary fuel ⟨pre ++ (ds ++ rest), tks, pre.length, row, col, mode⟩
        = some (.error (.InvalidBinaryLiteral
            ⟨⟨pre.length + 1, row, col + 1⟩, ⟨pre.length + 65, row, col + 65⟩⟩)) := by
  intro pre ds rest tks row col mode fuel h65 hds hfuel
  have h := binLoop_sees_65th_digit ds pre rest tks row col mode 0 0 fuel hds
    (by omega) (by omega) (by omega)
  rw [h65] at h
  have e1 : pre.length + 65 - 64 = pre.length + 1 := by omega
  have e2 : col + 65 - 64 = col + 1 := by omega
  rw [e1, e2] at h
  exact h

/-- C6 witness: the amended statement at the concrete post-prefix state of
"0b" followed by sixty-five 1-digits: error range [3,67). -/
theorem c6_binary_65th_digit_error_range_witness :
    process_binary 65
      ⟨['0', 'b'] ++ (List.replicate 65 '1' ++ []), [], 2, 0, 2, .Unsigned⟩
      = some (.error (.InvalidBinaryLiteral ⟨⟨3, 0, 3⟩, ⟨67, 0, 67⟩⟩)) :=
  c6_binary_65th_digit_error_range ['0', 'b'] (List.replicate 65 '1') [] [] 0 2 .Unsigned 65
    (by decide) (by decide) (by omega)

/-! ## Claim C5 -/

theorem unsignedLoop_digit_run : ∀ (ds pre rest : List Char) (tks : List Token)
    (row col : Nat) (mode : NumericType) (n len m fuel : Nat),
    (∀ c ∈ ds, isDigitR 10 c = true) →
    (∀ c, rest.head? = some c → isDigitR 10 c = false) →
    accumU n ds = some m → 0 < len + ds.length → ds.length + 1 ≤ fuel →
    unsignedLoop fuel ⟨pre ++ (ds ++ rest), tks, pre.length, row, col, mode⟩ n len
      = some (.ok ⟨pre ++ (ds ++ rest),
          tks ++ [⟨.UnsignedIntegerLiteral m,
            ⟨⟨pre.length - len, row, col - len⟩,
             ⟨pre.length + ds.length, row, col + ds.length⟩⟩⟩],
          pre.length + ds.length, row, col + ds.length, mode⟩) := by
  intro ds
  induction ds with
  | nil =>
    intro pre rest tks row col mode n len m fuel hds hrest hacc hpos hfuel
    obtain _ | f := fuel
    · exact absurd hfuel (by omega)
    · have hmn : n = m := by simpa [accumU] using hacc
      subst hmn
      have hcur : (⟨pre ++ ([] ++ rest), tks, pre.length, row, col, mode⟩ : Lexer).current
          = rest.head? := get?_append_head pre ([] ++ rest)
      have hl0 : len ≠ 0 := by simp only [List.length_nil] at hpos; omega
      have hfin : unsignedLoop (f + 1) ⟨pre ++ ([] ++ rest), tks, pre.length, row, col, mode⟩ n len
          = some (unsignedFinish ⟨pre ++ ([] ++ rest), tks, pre.length, row, col, mode⟩ n len) := by
        cases hh : rest.head? with
        | none =>
          rw [hh] at hcur
          simp only [unsignedLoop, hcur]
        | some c =>
          rw [hh] at hcur
          have hdc := hrest c hh
          simp only [unsignedLoop, hcur]
          rw [if_neg (by rw [hdc]; exact Bool.false_ne_true)]
      rw [hfin]
      simp only [unsignedFinish]
      rw [if_neg hl0]
      rfl
  | cons c cs ih =>
    intro pre rest tks row col mode n len m fuel hds hrest hacc hpos hfuel
    obtain _ | f := fuel
    · exact absurd hfuel (by simp only [List.length_cons]; omega)
    · have hcur : (⟨pre ++ ((c :: cs) ++ rest), tks, pre.length, row, col, mode⟩ : Lexer).current
          = some c := get?_append_head pre ((c :: cs) ++ rest)
      have hdc : isDigitR 10 c = true := hds c (List.mem_cons_self c cs)
      simp only [unsignedLoop, hcur]
      rw [if_pos hdc]
      have hre : (⟨pre ++ ((c :: cs) ++ rest), tks, pre.length, row, col, mode⟩ : Lexer).increment
          = ⟨(pre ++ [c]) ++ (cs ++ rest), tks, (pre ++ [c]).length, row, col + 1, mode⟩ := by
        simp [Lexer.increment]
      by_cases hn : n = 0
      · rw [if_pos hn]
        have hacc2 : accumU (digitVal 10 c) cs = some m := by
          rw [hn] at hacc
          simpa [accumU] using hacc
        rw [hre]
        rw [ih (pre ++ [c]) rest tks row (col + 1) mode (digitVal 10 c) (len + 1) m f
          (fun x hx => hds x (List.mem_cons_of_mem c hx)) hrest hacc2
          (by omega)
          (by simp only [List.length_cons] at hfuel; omega)]
        have e0 : (pre ++ [c]) ++ (cs ++ rest) = pre ++ ((c :: cs) ++ rest) := by simp
        have e1 : (pre ++ [c]).length = pre.length + 1 := by simp
        rw [e0, e1]
        have e2 : pre.length + 1 - (len + 1) = pre.length - len := by omega
        have e3 : col + 1 - (len + 1) = col - len := by omega
        have e4 : pre.length + 1 + cs.length = pre.length + (c :: cs).length := by
          simp only [List.length_cons]; omega
        have e5 : col + 1 + cs.length = col + (c :: cs).length := by
          simp only [List.length_cons]; omega
        rw [e2, e3, e4, e5]
      · rw [if_neg hn]
        have hacc2 := hacc
        simp only [accumU] at hacc2
        rw [if_neg hn] at hacc2
        cases hadd : checkedAddU64 (wrapU64 (n * 10)) (digitVal 10 c) with
        | none =>
          rw [hadd] at hacc2
          exact absurd hacc2 (by simp)
        | some m2 =>
          rw [hadd] at hacc2
          simp only [hadd]
          rw [hre]
          rw [ih (pre ++ [c]) rest tks row (col + 1) mode m2 (len + 1) m f
            (fun x hx => hds x (List.mem_cons_of_mem c hx)) hrest hacc2
            (by omega)
            (by simp only [List.length_cons] at hfuel; omega)]
          have e0 : (pre ++ [c]) ++ (cs ++ rest) = pre ++ ((c :: cs) ++ rest) := by simp
          have e1 : (pre ++ [c]).length = pre.length + 1 := by simp
          rw [e0, e1]
          have e2 : pre.length + 1 - (len + 1) = pre.length - len := by omega
          have e3 : col + 1 - (len + 1) = col - len := by omega
          have e4 : pre.length + 1 + cs.length = pre.length + (c :: cs).length := by
            simp only [List.length_cons]; omega
          have e5 : col + 1 + cs.length = col + (c :: cs).length := by
            simp only [List.length_cons]; omega
          rw [e2, e3, e4, e5]

theorem isDigitR10_toNat {c : Char} (h : isDigitR 10 c = true) :
    48 ≤ c.toNat ∧ c.toNat ≤ 57 := by
  simp only [isDigitR, charToDigit] at h
  by_cases h1 : 48 ≤ c.toNat ∧ c.toNat ≤ 57
  · exact h1
  · rw [if_neg h1] at h
    by_cases h2 : 97 ≤ c.toNat ∧ c.toNat ≤ 122
    · rw [if_pos h2, if_neg (by omega)] at h
      simp at h
    · rw [if_neg h2] at h
      by_cases h3 : 65 ≤ c.toNat ∧ c.toNat ≤ 90
      · rw [if_pos h3, if_neg (by omega)] at h
        simp at h
      · rw [if_neg h3] at h
        simp at h

theorem char_ne_of_toNat_ne {c d : Char} (h : c.toNat ≠ d.toNat) : c ≠ d :=
  fun he => h (by rw [he])

theorem process_digit_start (f : Nat) (l : Lexer) (c : Char) (hc : l.current = some c)
    (hd : isDigitR 10 c = true) (hmode : l.default_numeric = .Unsigned)
    (hpk : c = '0' → ∀ p, l.peek = some p → isDigitR 10 p = true) :
    process (f + 1) l
      = (match process_unsigned f l with
         | none => none
         | some (.error e) => some (.error e)
         | some (.ok l2) => process f l2) := by
  obtain ⟨h1, h2⟩ := isDigitR10_toNat hd
  have hpd : process_default_numeric f l = process_unsigned f l := by
    simp only [process_default_numeric, hmode, hc]
    rw [if_neg (by intro he; rw [Option.some.inj he] at h1; exact absurd h1 (by decide))]
  simp only [process, hc]
  by_cases h0 : c = '0'
  · subst h0
    rw [if_neg (by decide), if_neg (by decide), if_neg (by decide), if_neg (by decide),
      if_neg (by decide), if_neg (by decide), if_pos rfl]
    cases hp : l.peek with
    | none =>
      simp only [hp]
      rw [hpd]
    | some p =>
      have hp10 := hpk rfl p hp
      obtain ⟨hp1, hp2⟩ := isDigitR10_toNat hp10
      simp only [hp]
      rw [if_neg (char_ne_of_toNat_ne (show p.toNat ≠ 120 by omega)),
        if_neg (char_ne_of_toNat_ne (show p.toNat ≠ 98 by omega)),
        if_neg (char_ne_of_toNat_ne (show p.toNat ≠ 105 by omega)),
        if_neg (char_ne_of_toNat_ne (show p.toNat ≠ 117 by omega)),
        if_neg (char_ne_of_toNat_ne (show p.toNat ≠ 102 by omega)),
        hpd]
  · rw [if_neg (char_ne_of_toNat_ne (show c.toNat ≠ 10 by omega)),
      if_neg (char_ne_of_toNat_ne (show c.toNat ≠ 37 by omega)),
      if_neg (char_ne_of_toNat_ne (show c.toNat ≠ 35 by omega)),
      if_neg (char_ne_of_toNat_ne (show c.toNat ≠ 44 by omega)),
      if_neg (char_ne_of_toNat_ne (show c.toNat ≠ 58 by omega)),
      if_neg (char_ne_of_toNat_ne (show c.toNat ≠ 36 by omega)),
      if_neg h0,
      if_neg (show ¬(isRustWhitespace c = true) from by
        simp only [isRustWhitespace, decide_eq_true_eq]; omega),
      if_neg (show ¬((isRustAlphabetic c || decide (c = '_')) = true) from by
        simp only [isRustAlphabetic, Bool.or_eq_true, decide_eq_true_eq]
        rintro (hh | hh)
        · omega
        · rw [hh] at h2; exact absurd h2 (by decide)),
      if_pos (show (isDigitR 10 c || decide (c = '-')) = true from by rw [hd]; rfl),
      hpd]

theorem tokenize_digit_run (ds : List Char) (m : Nat) (hne : ds ≠ [])
    (hds : ∀ c ∈ ds, isDigitR 10 c = true) (hacc : accumU 0 ds = some m) :
    tokenize ds
      = some (.ok [⟨.UnsignedIntegerLiteral m, ⟨⟨0, 0, 0⟩, ⟨ds.length, 0, ds.length⟩⟩⟩]) := by
  obtain ⟨d, ds', rfl⟩ := List.exists_cons_of_ne_nil hne
  have hstep := process_digit_start ((d :: ds').length + 1) (Lexer.new (d :: ds') .Unsigned) d
    rfl (hds d (List.mem_cons_self d ds')) rfl
    (fun _ p hp => by
      have hp2 : ds'.get? 0 = some p := hp
      cases ds' with
      | nil => exact absurd hp2 (by simp)
      | cons e es =>
        have he : e = p := Option.some.inj hp2
        rw [← he]
        exact hds e (List.mem_cons_of_mem d (List.mem_cons_self e es)))
  have hun : process_unsigned ((d :: ds').length + 1) (Lexer.new (d :: ds') .Unsigned)
      = some (.ok ⟨d :: ds',
          [⟨.UnsignedIntegerLiteral m, ⟨⟨0, 0, 0⟩, ⟨(d :: ds').length, 0, (d :: ds').length⟩⟩⟩],
          (d :: ds').length, 0, (d :: ds').length, .Unsigned⟩) := by
    have h := unsignedLoop_digit_run (d :: ds') [] [] [] 0 0 .Unsigned 0 0 m
      ((d :: ds').length + 1) hds (fun c hc => nomatch hc) hacc
      (by simp only [List.length_cons, Nat.zero_add]; omega) (by omega)
    simp only [List.nil_append, List.append_nil, List.length_nil, Nat.zero_add,
      Nat.sub_zero] at h
    exact h
  have hend : process ((d :: ds').length + 1)
      ⟨d :: ds',
        [⟨.UnsignedIntegerLiteral m, ⟨⟨0, 0, 0⟩, ⟨(d :: ds').length, 0, (d :: ds').length⟩⟩⟩],
        (d :: ds').length, 0, (d :: ds').length, .Unsigned⟩
      = some (.ok ⟨d :: ds',
          [⟨.UnsignedIntegerLiteral m, ⟨⟨0, 0, 0⟩, ⟨(d :: ds').length, 0, (d :: ds').length⟩⟩⟩],
          (d :: ds').length, 0, (d :: ds').length, .Unsigned⟩) := by
    have hcn : (⟨d :: ds',
        [⟨.UnsignedIntegerLiteral m, ⟨⟨0, 0, 0⟩, ⟨(d :: ds').length, 0, (d :: ds').length⟩⟩⟩],
        (d :: ds').length, 0, (d :: ds').length, .Unsigned⟩ : Lexer).current = none :=
      get?_length_none (d :: ds')
    simp only [process, hcn]
  have hfull : process ((d :: ds').length + 1 + 1) (Lexer.new (d :: ds') .Unsigned)
      = some (.ok ⟨d :: ds',
          [⟨.UnsignedIntegerLiteral m, ⟨⟨0, 0, 0⟩, ⟨(d :: ds').length, 0, (d :: ds').length⟩⟩⟩],
          (d :: ds').length, 0, (d :: ds').length, .Unsigned⟩) := by
    rw [hstep]
    simp only [hun]
    exact hend
  simp only [tokenize]
  rw [show defaultFuel (d :: ds') = (d :: ds').length + 1 + 1 from rfl]
  simp only [hfull]

theorem rangeString_decomposition (pre ds rest : List Char) (p q : Position)
    (hp : p.idx = pre.length) (hq : q.idx = pre.length + ds.length) :
    rangeString (pre ++ (ds ++ rest)) ⟨p, q⟩ = ds := by
  simp only [rangeString, hp, hq]
  rw [show pre.length + ds.length - pre.length = ds.length by omega]
  rw [List.drop_left, List.take_left]

/-- C5 (amended): re-lexing the exact substring spanned by a token's range
reproduces a single token of the same kind and value for unprefixed unsigned
decimal literals: a token emitted by the unsigned sub-parser spans exactly
its digit run, the spanned substring is that digit run, and tokenizing it
alone (same Unsigned default mode) yields one UnsignedIntegerLiteral of the
same value.  The property fails for prefixed literals, whose dispatch prefix
lies outside the emitted range (see the counterexample). -/
theorem c5_unsigned_token_relex_reproduces_kind_and_value
    (pre ds rest : List Char) (tks : List Token) (row col : Nat)
    (mode : NumericType) (m fuel : Nat) (hne : ds ≠ [])
    (hds : ∀ c ∈ ds, isDigitR 10 c = true)
    (hrest : ∀ c, rest.head? = some c → isDigitR 10 c = false)
    (hacc : accumU 0 ds = some m) (hfuel : ds.length + 1 ≤ fuel) :
    process_unsigned fuel ⟨pre ++ (ds ++ rest), tks, pre.length, row, col, mode⟩
      = some (.ok ⟨pre ++ (ds ++ rest),
          tks ++ [⟨.UnsignedIntegerLiteral m,
            ⟨⟨pre.length, row, col⟩, ⟨pre.length + ds.length, row, col + ds.length⟩⟩⟩],
          pre.length + ds.length, row, col + ds.length, mode⟩) ∧
    rangeString (pre ++ (ds ++ rest))
        ⟨⟨pre.length, row, col⟩, ⟨pre.length + ds.length, row, col + ds.length⟩⟩ = ds ∧
    tokenize ds
      = some (.ok [⟨.UnsignedIntegerLiteral m, ⟨⟨0, 0, 0⟩, ⟨ds.length, 0, ds.length⟩⟩⟩]) := by
  refine ⟨?_, ?_, ?_⟩
  · have h := unsignedLoop_digit_run ds pre rest tks row col mode 0 0 m fuel hds hrest hacc
      (by have := List.length_pos.mpr hne; omega) hfuel
    exact h
  · exact rangeString_decomposition pre ds rest ⟨pre.length, row, col⟩
      ⟨pre.length + ds.length, row, col + ds.length⟩ rfl rfl
  · exact tokenize_digit_run ds m hne hds hacc

/-- C5 witness: the amended statement at the post-prefix state of "0u52"
(token [2,4) spanning "52") and the re-lexing of "52" itself. -/
theorem c5_unsigned_token_relex_reproduces_kind_and_value_witness :
    process_unsigned 3 ⟨['0', 'u', '5', '2'], [], 2, 0, 2, .Unsigned⟩
      = some (.ok ⟨['0', 'u', '5', '2'],
          [⟨.UnsignedIntegerLiteral 52, ⟨⟨2, 0, 2⟩, ⟨4, 0, 4⟩⟩⟩], 4, 0, 4, .Unsigned⟩) ∧
    rangeString ['0', 'u', '5', '2'] ⟨⟨2, 0, 2⟩, ⟨4, 0, 4⟩⟩ = ['5', '2'] ∧
    tokenize ['5', '2']
      = some (.ok [⟨.UnsignedIntegerLiteral 52, ⟨⟨0, 0, 0⟩, ⟨2, 0, 2⟩⟩⟩]) := by
  have h := c5_unsigned_token_relex_reproduces_kind_and_value ['0', 'u'] ['5', '2']
    ([] : List Char) ([] : List Token) 0 2 .Unsigned 52 3
    (by decide) (by decide) (fun c hc => nomatch hc) (by rfl) (by decide)
  exact h
